import Mathlib

/-!
# Buffered append writer of the log aggregator consumer

A shallow embedding of `consumer/main.go` (`processLogs`, `writeLogs`, the start of
`main`) and of `common/log.go` (`LogEntry`), with the output file and the diagnostics
passed as explicit state.  The JSON encoder of the standard library is a parameter
`marshal : LogEntry → Option Bytes` (`json.MarshalIndent(entry, "  ", "  ")`,
`none` when it returns an error).
-/

namespace LogAggregator

/-- Raw bytes, as held by the output file and produced by the encoder. -/
abbrev Bytes := List UInt8

/-- The struct `common.LogEntry`.  `Timestamp` is the instant of the `time.Time`, in
seconds since the Unix epoch and read in UTC (the writer never looks inside it);
`Level` is the string behind `common.LogLevel`; `Metadata` lists the pairs of the Go
map. -/
structure LogEntry where
  Timestamp : Int
  Level : String
  Service : String
  Message : String
  Metadata : List (String × String)
deriving DecidableEq, Repr

/-- The array-opening token written at line 127, the bytes of `"[\n"`. -/
def openTok : Bytes := [91, 10]

/-- The separator written at line 176, the bytes of `",\n"`. -/
def sepTok : Bytes := [44, 10]

/-- The closing token written at line 185, the bytes of `"\n]"`. -/
def closeTok : Bytes := [10, 93]

/-- Observable effects of the writer, one constructor per effectful statement:
`file.WriteString("[\n")` (line 127), `file.WriteString(",\n")` (line 176),
`file.Write(data)` (line 180), `file.WriteString("\n]")` (line 185), `file.Sync()`
(line 188), the `log.Printf` of a marshalling error (line 170) and the
`fmt.Printf("Wrote %d logs ...")` (line 189). -/
inductive Effect where
  | writeOpen
  | writeSep
  | writeEntry (data : Bytes)
  | writeClose
  | sync
  | marshalError
  | wrote (n : Nat)
deriving DecidableEq, Repr

/-- The bytes a write statement hands to the file; nothing for the other effects. -/
def Effect.bytes : Effect → Bytes
  | .writeOpen => openTok
  | .writeSep => sepTok
  | .writeEntry data => data
  | .writeClose => closeTok
  | .sync => []
  | .marshalError => []
  | .wrote _ => []

/-- Whether the effect is one of the four write statements. -/
def Effect.isWrite : Effect → Bool
  | .writeOpen => true
  | .writeSep => true
  | .writeEntry _ => true
  | .writeClose => true
  | _ => false

/-- The process's view of the output file and of its own diagnostics.
`contents` are the bytes on disk, `offset` the position set by `Seek`, `faults` the
outcomes of the storage calls still to come (`none`: the call succeeds, `some k`: the
call fails after `k` bytes; an exhausted list means every later call succeeds), and
`effects` the statements executed so far, in order. -/
structure World where
  contents : Bytes
  offset : Nat
  faults : List (Option Nat)
  effects : List Effect
deriving DecidableEq, Repr

/-- One `file.Write` / `file.WriteString` call.  The file is opened with `O_APPEND`
(line 113), so the data lands at the end of the file whatever the offset is, and the
offset ends up at the new end.  The error result is dropped by every caller. -/
def World.write (w : World) (eff : Effect) : World :=
  match w.faults with
  | [] =>
    { contents := w.contents ++ eff.bytes, offset := (w.contents ++ eff.bytes).length,
      faults := [], effects := w.effects ++ [eff] }
  | none :: rest =>
    { contents := w.contents ++ eff.bytes, offset := (w.contents ++ eff.bytes).length,
      faults := rest, effects := w.effects ++ [eff] }
  | some k :: rest =>
    { contents := w.contents ++ eff.bytes.take k,
      offset := (w.contents ++ eff.bytes.take k).length,
      faults := rest, effects := w.effects ++ [eff] }

/-- The call `file.Sync()` of line 188: it consumes one storage outcome and changes no byte;
its error result is dropped. -/
def World.sync (w : World) : World :=
  { w with faults := w.faults.tail, effects := w.effects ++ [Effect.sync] }

/-- A diagnostic line (`log.Printf`, `fmt.Printf`). -/
def World.print (w : World) (eff : Effect) : World :=
  { w with effects := w.effects ++ [eff] }

/-- The call `file.Seek(-2, 2)` of line 130: two bytes before the end, an error (dropped)
when that position is negative. -/
def World.seekEnd2 (w : World) : World :=
  if 2 ≤ w.contents.length then { w with offset := w.contents.length - 2 } else w

/-- The size reported by `file.Stat()`. -/
def World.size (w : World) : Nat := w.contents.length

/-- The `for i, entry := range logs` loop of `writeLogs` (lines 166-181), from index `i`. -/
def writeEntries (marshal : LogEntry → Option Bytes) : World → Nat → List LogEntry → World
  | w, _, [] => w
  | w, i, entry :: rest =>
    match marshal entry with
    | none => writeEntries marshal (w.print Effect.marshalError) (i + 1) rest
    | some data =>
      let w1 := if i > 0 ∨ w.size > 2 then w.write Effect.writeSep else w
      writeEntries marshal (w1.write (Effect.writeEntry data)) (i + 1) rest

/-- The function `writeLogs` (lines 161-190). -/
def writeLogs (marshal : LogEntry → Option Bytes) (w : World) (logs : List LogEntry)
    (isFinal : Bool) : World :=
  if logs.length = 0 then w
  else
    let w1 := writeEntries marshal w 0 logs
    let w2 := if isFinal then w1.write Effect.writeClose else w1
    (w2.sync).print (Effect.wrote logs.length)

/-- What the `select` of `processLogs` can observe: an entry received from `logBuffer`,
a tick of the 5 second ticker, or the closed channel (`ok == false`). -/
inductive Event where
  | recv (entry : LogEntry)
  | tick
  | closed
deriving DecidableEq, Repr

/-- The local state of `processLogs`: the file and diagnostics, and the slice `logs`. -/
structure Writer where
  world : World
  logs : List LogEntry
deriving DecidableEq, Repr

/-- One iteration of the `for { select { ... } }` loop (lines 134-157); the flag tells
whether the iteration executed `return`.  `bufferFlag` is the value of `*bufferFlag`. -/
def step (bufferFlag : Int) (marshal : LogEntry → Option Bytes) (s : Writer) :
    Event → Bool × Writer
  | .closed => (true, { s with world := writeLogs marshal s.world s.logs true })
  | .recv entry =>
    let logs := s.logs ++ [entry]
    if (logs.length : Int) ≥ bufferFlag then
      (false, { world := writeLogs marshal s.world logs false, logs := [] })
    else (false, { s with logs := logs })
  | .tick =>
    if s.logs.length > 0 then
      (false, { world := writeLogs marshal s.world s.logs false, logs := [] })
    else (false, s)

/-- How a call of `processLogs` stands once the given events are consumed. -/
inductive Outcome where
  | fatal
  | waiting (s : Writer)
  | returned (s : Writer)
deriving DecidableEq, Repr

/-- The loop of `processLogs` over the events the `select` observes, in order: it returns
at the first `closed`, and is still blocked in `select` when the events run out. -/
def loop (bufferFlag : Int) (marshal : LogEntry → Option Bytes) : Writer → List Event → Outcome
  | s, [] => Outcome.waiting s
  | s, ev :: rest =>
    match step bufferFlag marshal s ev with
    | (true, s1) => Outcome.returned s1
    | (false, s1) => loop bufferFlag marshal s1 rest

/-- The function `processLogs` (lines 107-158).  `disk` is the content of the output file
before the call (`none`: no such file, `O_CREATE` makes an empty one), `openErr` and
`statErr` tell whether `os.OpenFile` and `file.Stat` fail (`log.Fatalf`), `faults` are
the outcomes of the storage calls. -/
def processLogs (bufferFlag : Int) (marshal : LogEntry → Option Bytes) (disk : Option Bytes)
    (openErr statErr : Bool) (faults : List (Option Nat)) (events : List Event) : Outcome :=
  if openErr then Outcome.fatal
  else if statErr then Outcome.fatal
  else
    let w0 : World := { contents := disk.getD [], offset := 0, faults := faults, effects := [] }
    let w1 := if w0.size = 0 then w0.write Effect.writeOpen else w0.seekEnd2
    loop bufferFlag marshal { world := w1, logs := [] } events

/-- The effects the range loop of `writeLogs` performs on `logs`, where `sepFirst` tells
whether the element at the current index gets a separator; once the index has moved
past 0 every element written gets one. -/
def entryEffects (marshal : LogEntry → Option Bytes) : Bool → List LogEntry → List Effect
  | _, [] => []
  | sepFirst, entry :: rest =>
    match marshal entry with
    | none => Effect.marshalError :: entryEffects marshal true rest
    | some data =>
      (if sepFirst then [Effect.writeSep] else []) ++
        Effect.writeEntry data :: entryEffects marshal true rest

/-- The bytes handed to the file by a list of effects, in order. -/
def effectBytes : List Effect → Bytes
  | [] => []
  | eff :: rest => eff.bytes ++ effectBytes rest

/-- The payloads of the `file.Write(data)` statements among the effects, in order. -/
def entryData : List Effect → List Bytes
  | [] => []
  | Effect.writeEntry data :: rest => data :: entryData rest
  | _ :: rest => entryData rest

/-- Serializations laid out one after the other, each preceded by the separator, except
that the first one has it only when `sepFirst` holds. -/
def separated : Bool → List Bytes → Bytes
  | _, [] => []
  | sepFirst, data :: rest => (if sepFirst then sepTok else []) ++ data ++ separated true rest

/-- Serializations laid out one after the other with the given bytes `sep` before each,
except that the first one has them only when `sepFirst` holds. -/
def separatedBy (sep : Bytes) : Bool → List Bytes → Bytes
  | _, [] => []
  | sepFirst, data :: rest =>
    (if sepFirst then sep else []) ++ data ++ separatedBy sep true rest

/-- The array document spelled by the writer's tokens around the given element
serializations: opening token, elements joined by the separator, closing token. -/
def arrayDoc (datas : List Bytes) : Bytes := openTok ++ separated false datas ++ closeTok

/-- JSON insignificant whitespace: space, tab, line feed, carriage return. -/
def isWs (b : UInt8) : Bool := b = 32 || b = 9 || b = 10 || b = 13

/-- Scan of the text after an opening bracket at nesting depth `depth`, skipping string
literals: true when the bracket that brings the depth back to 0 is followed by
whitespace only. -/
def closesOnce : Nat → Bool → Bool → Bytes → Bool
  | _, _, _, [] => false
  | depth, true, true, _ :: rest => closesOnce depth true false rest
  | depth, true, false, b :: rest =>
    if b = 92 then closesOnce depth true true rest
    else if b = 34 then closesOnce depth false false rest
    else closesOnce depth true false rest
  | depth, false, _, b :: rest =>
    if b = 34 then closesOnce depth true false rest
    else if b = 91 || b = 123 then closesOnce (depth + 1) false false rest
    else if b = 93 || b = 125 then
      (if depth = 1 then rest.all isWs
       else if depth = 0 then false
       else closesOnce (depth - 1) false false rest)
    else closesOnce depth false false rest

/-- A condition every JSON text that is one array satisfies: its first significant byte
is `[`, and the bracket closing that one is the last significant byte. -/
def arrayShaped (bs : Bytes) : Bool :=
  match bs.dropWhile isWs with
  | b :: rest => b = 91 && closesOnce 1 false false rest
  | [] => false

/-- The bytes of an ASCII string. -/
def ascii (s : String) : Bytes := s.toList.map (fun c => UInt8.ofNat c.toNat)

/-- An encoder to evaluate the model with: like `encoding/json` it fails exactly when the
year of the timestamp is outside 0..9999 (the `time.Time` marshaller), and it renders
level, service and message in the indented layout; strings are taken to need no escape. -/
def sampleMarshal (entry : LogEntry) : Option Bytes :=
  if entry.Timestamp < -62167219200 ∨ 253402300800 ≤ entry.Timestamp then none
  else some (ascii ("\x7b\n    \"level\": \"" ++ entry.Level ++ "\",\n    \"service\": \"" ++
    entry.Service ++ "\",\n    \"message\": \"" ++ entry.Message ++ "\"\n  \x7d"))

/-- Sample entries. -/
def entryA : LogEntry := ⟨1700000000, "INFO", "api", "started", []⟩

/-- Second sample entry. -/
def entryB : LogEntry := ⟨1700000001, "ERROR", "db", "timeout", []⟩

/-- An entry whose timestamp lies in the year 10000, which `time.Time` refuses to marshal. -/
def entryBad : LogEntry := ⟨253402300800, "INFO", "api", "late", []⟩

/-- How the start of `main` (lines 25-64) ends. -/
inductive Startup where
  | fatalConsumer
  | fatalSubscribe
  | panicMakeChan
  | writerStarted (capacity : Nat) (threshold : Int)
deriving DecidableEq, Repr

/-- The builtin `make(chan common.LogEntry, size)`: a run-time panic for a negative size or
one above the allocation limit `maxChan` of the platform, else a channel of that capacity. -/
def makeChan (maxChan : Nat) (size : Int) : Option Nat :=
  if size < 0 ∨ (maxChan : Int) < size then none else some size.toNat

/-- The start of `main` up to the launch of the writer goroutine (lines 25-64):
`consumerErr` and `subscribeErr` tell whether `kafka.NewConsumer` and `SubscribeTopics`
fail.  The writer reads the same `*bufferFlag` as its threshold. -/
def mainStartup (maxChan : Nat) (bufferFlag : Int) (consumerErr subscribeErr : Bool) : Startup :=
  if consumerErr then Startup.fatalConsumer
  else if subscribeErr then Startup.fatalSubscribe
  else
    match makeChan maxChan bufferFlag with
    | none => Startup.panicMakeChan
    | some capacity => Startup.writerStarted capacity bufferFlag

/-- The file left by a call of `processLogs`, whatever its outcome. -/
def Outcome.contents : Outcome → Bytes
  | .fatal => []
  | .waiting s => s.world.contents
  | .returned s => s.world.contents

/-- The diagnostic lines among the effects: what the process prints. -/
def diagnostics : List Effect → List Effect
  | [] => []
  | Effect.marshalError :: rest => Effect.marshalError :: diagnostics rest
  | Effect.wrote n :: rest => Effect.wrote n :: diagnostics rest
  | _ :: rest => diagnostics rest

/-- What a caller or operator observes of a call of `processLogs` without reading the
file: how the call stands, the diagnostics printed, and the entries still pending. -/
def Outcome.observed : Outcome → Outcome
  | .fatal => .fatal
  | .waiting s => .waiting ⟨⟨[], 0, [], diagnostics s.world.effects⟩, s.logs⟩
  | .returned s => .returned ⟨⟨[], 0, [], diagnostics s.world.effects⟩, s.logs⟩

/-- The effects performed by a call of `processLogs`. -/
def Outcome.effects : Outcome → List Effect
  | .fatal => []
  | .waiting s => s.world.effects
  | .returned s => s.world.effects

/-! ## Storage primitives -/

theorem write_effects (w : World) (eff : Effect) :
    (w.write eff).effects = w.effects ++ [eff] := by
  unfold World.write
  split <;> rfl

theorem write_contents (w : World) (eff : Effect) (hf : w.faults = []) :
    (w.write eff).contents = w.contents ++ eff.bytes := by
  unfold World.write
  rw [hf]

theorem write_faults (w : World) (eff : Effect) (hf : w.faults = []) :
    (w.write eff).faults = [] := by
  unfold World.write
  rw [hf]

theorem effectBytes_append (xs ys : List Effect) :
    effectBytes (xs ++ ys) = effectBytes xs ++ effectBytes ys := by
  induction xs with
  | nil => rfl
  | cons x xs ih => simp [effectBytes, ih]

/-! ## The range loop of writeLogs -/

theorem writeEntries_effects (marshal : LogEntry → Option Bytes) (logs : List LogEntry) :
    ∀ (w : World) (i : Nat),
      (writeEntries marshal w i logs).effects =
        w.effects ++ entryEffects marshal (decide (i > 0 ∨ w.size > 2)) logs := by
  induction logs with
  | nil => intro w i; simp [writeEntries, entryEffects]
  | cons entry rest ih =>
    intro w i
    cases hm : marshal entry with
    | none =>
      simp only [writeEntries, entryEffects, hm]
      rw [ih]
      simp [World.print]
    | some data =>
      simp only [writeEntries, entryEffects, hm]
      rw [ih]
      by_cases hc : i > 0 ∨ w.size > 2
      · simp [hc, write_effects]
      · simp [hc, write_effects]

theorem writeEntries_faults (marshal : LogEntry → Option Bytes) (logs : List LogEntry) :
    ∀ (w : World) (i : Nat), w.faults = [] → (writeEntries marshal w i logs).faults = [] := by
  induction logs with
  | nil => intro w i hf; simpa [writeEntries] using hf
  | cons entry rest ih =>
    intro w i hf
    cases hm : marshal entry with
    | none =>
      simp only [writeEntries, hm]
      exact ih _ _ (by simpa [World.print] using hf)
    | some data =>
      simp only [writeEntries, hm]
      apply ih
      apply write_faults
      split
      · exact write_faults _ _ hf
      · exact hf

theorem writeEntries_contents (marshal : LogEntry → Option Bytes) (logs : List LogEntry) :
    ∀ (w : World) (i : Nat), w.faults = [] →
      (writeEntries marshal w i logs).contents =
        w.contents ++ effectBytes (entryEffects marshal (decide (i > 0 ∨ w.size > 2)) logs) := by
  induction logs with
  | nil => intro w i _; simp [writeEntries, entryEffects, effectBytes]
  | cons entry rest ih =>
    intro w i hf
    cases hm : marshal entry with
    | none =>
      simp only [writeEntries, entryEffects, hm]
      rw [ih _ _ (by simpa [World.print] using hf)]
      simp [World.print, effectBytes, Effect.bytes]
    | some data =>
      simp only [writeEntries, entryEffects, hm]
      by_cases hc : i > 0 ∨ w.size > 2
      · rw [ih _ _ (write_faults _ _ (by simpa [hc] using write_faults w _ hf))]
        simp [hc, write_contents, write_faults, hf, effectBytes, Effect.bytes]
      · rw [ih _ _ (write_faults _ _ (by simpa [hc] using hf))]
        simp [hc, write_contents, hf, effectBytes, Effect.bytes]

/-! ## What the range loop writes -/

theorem entryData_append (xs ys : List Effect) :
    entryData (xs ++ ys) = entryData xs ++ entryData ys := by
  induction xs with
  | nil => rfl
  | cons x xs ih => cases x <;> simp [entryData, ih]

theorem entryData_entryEffects (marshal : LogEntry → Option Bytes) (logs : List LogEntry) :
    ∀ sepFirst : Bool, entryData (entryEffects marshal sepFirst logs) = logs.filterMap marshal := by
  induction logs with
  | nil => intro b; rfl
  | cons entry rest ih =>
    intro b
    cases hm : marshal entry with
    | none => simp [entryEffects, hm, entryData, ih, List.filterMap_cons]
    | some data =>
      cases b <;> simp [entryEffects, hm, entryData, ih, List.filterMap_cons]

theorem count_marshalError_entryEffects (marshal : LogEntry → Option Bytes)
    (logs : List LogEntry) :
    ∀ sepFirst : Bool, (entryEffects marshal sepFirst logs).count Effect.marshalError =
      logs.countP (fun entry => (marshal entry).isNone) := by
  induction logs with
  | nil => intro b; rfl
  | cons entry rest ih =>
    intro b
    cases hm : marshal entry with
    | none => simp [entryEffects, hm, ih, List.countP_cons]
    | some data =>
      cases b <;> simp [entryEffects, hm, ih, List.countP_cons, List.count_cons]

theorem entryEffects_mem (marshal : LogEntry → Option Bytes) (logs : List LogEntry) :
    ∀ (sepFirst : Bool) (eff : Effect), eff ∈ entryEffects marshal sepFirst logs →
      eff = Effect.writeSep ∨ eff = Effect.marshalError ∨
        ∃ entry ∈ logs, marshal entry = some eff.bytes ∧ eff = Effect.writeEntry eff.bytes := by
  induction logs with
  | nil => intro b eff h; simp [entryEffects] at h
  | cons entry rest ih =>
    intro b eff h
    cases hm : marshal entry with
    | none =>
      simp only [entryEffects, hm, List.mem_cons] at h
      rcases h with h | h
      · exact Or.inr (Or.inl h)
      · rcases ih true eff h with h1 | h1 | ⟨x, hx, hx1, hx2⟩
        · exact Or.inl h1
        · exact Or.inr (Or.inl h1)
        · exact Or.inr (Or.inr ⟨x, List.mem_cons_of_mem _ hx, hx1, hx2⟩)
    | some data =>
      simp only [entryEffects, hm, List.mem_append, List.mem_cons] at h
      rcases h with h | h | h
      · left
        cases b <;> simp at h
        exact h
      · right; right
        refine ⟨entry, List.mem_cons_self _ _, ?_, ?_⟩
        · rw [h]; simpa [Effect.bytes] using hm
        · rw [h]; rfl
      · rcases ih true eff h with h1 | h1 | ⟨x, hx, hx1, hx2⟩
        · exact Or.inl h1
        · exact Or.inr (Or.inl h1)
        · exact Or.inr (Or.inr ⟨x, List.mem_cons_of_mem _ hx, hx1, hx2⟩)

theorem entryEffects_serializable (marshal : LogEntry → Option Bytes) (logs : List LogEntry)
    (hs : ∀ entry ∈ logs, (marshal entry).isSome) :
    ∀ sepFirst : Bool, effectBytes (entryEffects marshal sepFirst logs) =
      separated sepFirst (logs.filterMap marshal) := by
  induction logs with
  | nil => intro b; rfl
  | cons entry rest ih =>
    intro b
    have h1 := hs entry (List.mem_cons_self _ _)
    have h2 : ∀ x ∈ rest, (marshal x).isSome := fun x hx => hs x (List.mem_cons_of_mem _ hx)
    cases hm : marshal entry with
    | none => simp [hm] at h1
    | some data =>
      cases b <;>
        simp [entryEffects, hm, effectBytes, separated, ih h2, Effect.bytes,
          List.filterMap_cons, effectBytes_append]

/-! ## writeLogs -/

theorem writeLogs_nil (marshal : LogEntry → Option Bytes) (w : World) (isFinal : Bool) :
    writeLogs marshal w [] isFinal = w := by
  simp [writeLogs]

theorem writeLogs_effects (marshal : LogEntry → Option Bytes) (w : World)
    (logs : List LogEntry) (isFinal : Bool) (hne : logs ≠ []) :
    (writeLogs marshal w logs isFinal).effects =
      w.effects ++ (entryEffects marshal (decide (w.size > 2)) logs ++
        ((if isFinal then [Effect.writeClose] else []) ++
          [Effect.sync, Effect.wrote logs.length])) := by
  have hlen : logs.length ≠ 0 := by simpa using hne
  cases isFinal <;>
    simp [writeLogs, hlen, World.print, World.sync, write_effects, writeEntries_effects]

theorem writeLogs_contents (marshal : LogEntry → Option Bytes) (w : World)
    (logs : List LogEntry) (isFinal : Bool) (hne : logs ≠ []) (hf : w.faults = []) :
    (writeLogs marshal w logs isFinal).contents =
      w.contents ++ (effectBytes (entryEffects marshal (decide (w.size > 2)) logs) ++
        (if isFinal then closeTok else [])) := by
  have hlen : logs.length ≠ 0 := by simpa using hne
  have hf1 := writeEntries_faults marshal logs w 0 hf
  cases isFinal <;>
    simp [writeLogs, hlen, World.print, World.sync, write_contents, hf1,
      writeEntries_contents, hf, Effect.bytes]

theorem writeLogs_faults (marshal : LogEntry → Option Bytes) (w : World)
    (logs : List LogEntry) (isFinal : Bool) (hf : w.faults = []) :
    (writeLogs marshal w logs isFinal).faults = [] := by
  have hf1 := writeEntries_faults marshal logs w 0 hf
  by_cases hlen : logs.length = 0
  · simp [writeLogs, hlen, hf]
  · cases isFinal <;>
      simp [writeLogs, hlen, World.print, World.sync, write_faults, hf1]

/-! ## The select loop -/

theorem loop_recv_below (marshal : LogEntry → Option Bytes) (N : Nat) (w : World)
    (entries : List LogEntry) :
    ∀ pending : List LogEntry, pending.length + entries.length < N →
      loop (N : Int) marshal ⟨w, pending⟩ (entries.map Event.recv) =
        Outcome.waiting ⟨w, pending ++ entries⟩ := by
  induction entries with
  | nil => intro pending _; simp [loop]
  | cons entry rest ih =>
    intro pending h
    simp only [List.length_cons] at h
    have hlt : ¬ ((pending ++ [entry]).length : Int) ≥ (N : Int) := by
      simp only [List.length_append, List.length_singleton]
      omega
    have hrest : (pending ++ [entry]).length + rest.length < N := by
      simp only [List.length_append, List.length_singleton]
      omega
    simp only [List.map_cons, loop, step, hlt, if_false]
    rw [ih _ hrest]
    simp

theorem loop_recv_reach (marshal : LogEntry → Option Bytes) (N : Nat) (w : World)
    (entries : List LogEntry) :
    ∀ pending : List LogEntry, entries ≠ [] → pending.length + entries.length = N →
      loop (N : Int) marshal ⟨w, pending⟩ (entries.map Event.recv) =
        Outcome.waiting ⟨writeLogs marshal w (pending ++ entries) false, []⟩ := by
  induction entries with
  | nil => intro pending h; exact absurd rfl h
  | cons entry rest ih =>
    intro pending _ h
    simp only [List.length_cons] at h
    by_cases hr : rest = []
    · subst hr
      have hge : ((pending ++ [entry]).length : Int) ≥ (N : Int) := by
        simp only [List.length_append, List.length_singleton, List.length_nil] at h ⊢
        omega
      simp only [List.map_cons, List.map_nil, loop, step, hge, if_true]
    · have hlt : ¬ ((pending ++ [entry]).length : Int) ≥ (N : Int) := by
        have : 0 < rest.length := List.length_pos.mpr hr
        simp only [List.length_append, List.length_singleton]
        omega
      have hrest : (pending ++ [entry]).length + rest.length = N := by
        simp only [List.length_append, List.length_singleton]
        omega
      simp only [List.map_cons, loop, step, hlt, if_false]
      rw [ih _ hr hrest]
      simp

theorem loop_closed_returns (bufferFlag : Int) (marshal : LogEntry → Option Bytes)
    (events : List Event) :
    ∀ s : Writer, ∃ s1, loop bufferFlag marshal s (events ++ [Event.closed]) =
      Outcome.returned s1 := by
  induction events with
  | nil => intro s; exact ⟨⟨writeLogs marshal s.world s.logs true, s.logs⟩, rfl⟩
  | cons ev rest ih =>
    intro s
    simp only [List.cons_append, loop]
    rcases hstep : step bufferFlag marshal s ev with ⟨done, s1⟩
    cases done
    · exact ih s1
    · exact ⟨s1, rfl⟩

theorem step_running_no_close (bufferFlag : Int) (marshal : LogEntry → Option Bytes)
    (s s1 : Writer) (ev : Event) (hstep : step bufferFlag marshal s ev = (false, s1))
    (hno : Effect.writeClose ∉ s.world.effects) : Effect.writeClose ∉ s1.world.effects := by
  have key : ∀ logs : List LogEntry,
      Effect.writeClose ∉ (writeLogs marshal s.world logs false).effects := by
    intro logs
    by_cases hne : logs = []
    · subst hne; simpa [writeLogs_nil] using hno
    · rw [writeLogs_effects _ _ _ _ hne]
      intro hmem
      simp only [List.mem_append, List.mem_cons] at hmem
      rcases hmem with h | h | h
      · exact hno h
      · rcases entryEffects_mem marshal logs _ _ h with h1 | h1 | ⟨_, _, _, h1⟩
        · cases h1
        · cases h1
        · cases h1
      · simp at h
  cases ev with
  | closed => simp [step] at hstep
  | recv entry =>
    simp only [step] at hstep
    split at hstep
    · cases hstep; exact key _
    · cases hstep; exact hno
  | tick =>
    simp only [step] at hstep
    split at hstep
    · cases hstep; exact key _
    · cases hstep; exact hno

theorem loop_returned_final (bufferFlag : Int) (marshal : LogEntry → Option Bytes)
    (events : List Event) :
    ∀ s s2 : Writer, loop bufferFlag marshal s events = Outcome.returned s2 →
      Effect.writeClose ∉ s.world.effects →
      ∃ s1 : Writer, Effect.writeClose ∉ s1.world.effects ∧
        s2 = ⟨writeLogs marshal s1.world s1.logs true, s1.logs⟩ := by
  induction events with
  | nil => intro s s2 h; simp [loop] at h
  | cons ev rest ih =>
    intro s s2 h hno
    simp only [loop] at h
    rcases hstep : step bufferFlag marshal s ev with ⟨done, s1⟩
    rw [hstep] at h
    cases done
    · exact ih s1 s2 h (step_running_no_close _ _ _ _ _ hstep hno)
    · cases ev with
      | closed =>
        simp only [step] at hstep
        cases hstep
        cases h
        exact ⟨s, hno, rfl⟩
      | recv entry =>
        simp only [step] at hstep
        split at hstep <;> cases hstep
      | tick =>
        simp only [step] at hstep
        split at hstep <;> cases hstep

/-! ## Idle ticks (C6) -/

/-- C6: in every writer state whose pending slice is empty, handling an interval tick
changes nothing at all: the loop goes on with the same state, so the file contents are
byte for byte the same and the pending slice is still empty. -/
theorem idle_tick_unchanged (bufferFlag : Int) (marshal : LogEntry → Option Bytes)
    (s : Writer) (hidle : s.logs = []) :
    step bufferFlag marshal s Event.tick = (false, s) ∧
      (step bufferFlag marshal s Event.tick).2.world.contents = s.world.contents ∧
      (step bufferFlag marshal s Event.tick).2.logs = [] := by
  have h : step bufferFlag marshal s Event.tick = (false, s) := by
    simp [step, hidle]
  rw [h]
  exact ⟨rfl, rfl, hidle⟩

theorem idle_tick_unchanged_witness :
    (⟨⟨openTok, 2, [], [Effect.writeOpen]⟩, []⟩ : Writer).logs = [] ∧
      step 100 sampleMarshal ⟨⟨openTok, 2, [], [Effect.writeOpen]⟩, []⟩ Event.tick =
        (false, ⟨⟨openTok, 2, [], [Effect.writeOpen]⟩, []⟩) :=
  ⟨rfl, (idle_tick_unchanged 100 sampleMarshal ⟨⟨openTok, 2, [], [Effect.writeOpen]⟩, []⟩ rfl).1⟩

/-! ## Serialization failures (C10) -/

/-- C10: for every batch, final or not, writeLogs runs to its end whatever entries fail
to serialize: the bytes it appends are those of the effects it performs, the payloads
it writes are exactly the serializations of the entries that do serialize, in their
original order, one diagnostic is printed per failing entry, and for a non-empty batch
the closing token (when final) and the sync and report statements still follow. -/
theorem serialization_failure_is_local (marshal : LogEntry → Option Bytes) (w : World)
    (logs : List LogEntry) (isFinal : Bool) (hf : w.faults = []) :
    ∃ effs : List Effect,
      (writeLogs marshal w logs isFinal).effects = w.effects ++ effs ∧
      (writeLogs marshal w logs isFinal).contents = w.contents ++ effectBytes effs ∧
      entryData effs = logs.filterMap marshal ∧
      effs.count Effect.marshalError = logs.countP (fun entry => (marshal entry).isNone) ∧
      (logs ≠ [] → ∃ body, effs = body ++
        ((if isFinal then [Effect.writeClose] else []) ++
          [Effect.sync, Effect.wrote logs.length])) := by
  by_cases hne : logs = []
  · subst hne
    refine ⟨[], ?_, ?_, ?_, ?_, ?_⟩
    · simp [writeLogs_nil]
    · simp [writeLogs_nil, effectBytes]
    · rfl
    · rfl
    · intro h; exact absurd rfl h
  · refine ⟨_, writeLogs_effects marshal w logs isFinal hne, ?_, ?_, ?_, ?_⟩
    · rw [writeLogs_contents marshal w logs isFinal hne hf]
      cases isFinal <;> simp [effectBytes_append, effectBytes, Effect.bytes]
    · rw [entryData_append, entryData_entryEffects]
      cases isFinal <;> simp [entryData]
    · rw [List.count_append, count_marshalError_entryEffects]
      cases isFinal <;> simp [List.count_cons]
    · intro _
      exact ⟨_, rfl⟩

theorem serialization_failure_is_local_witness :
    (⟨openTok, 2, [], [Effect.writeOpen]⟩ : World).faults = [] ∧
    ∃ effs : List Effect,
      (writeLogs sampleMarshal ⟨openTok, 2, [], [Effect.writeOpen]⟩
        [entryA, entryBad, entryB] true).effects = [Effect.writeOpen] ++ effs ∧
      (writeLogs sampleMarshal ⟨openTok, 2, [], [Effect.writeOpen]⟩
        [entryA, entryBad, entryB] true).contents = openTok ++ effectBytes effs ∧
      entryData effs = [entryA, entryBad, entryB].filterMap sampleMarshal ∧
      effs.count Effect.marshalError =
        [entryA, entryBad, entryB].countP (fun entry => (sampleMarshal entry).isNone) ∧
      ([entryA, entryBad, entryB] ≠ [] → ∃ body, effs = body ++
        ((if true = true then [Effect.writeClose] else []) ++
          [Effect.sync, Effect.wrote [entryA, entryBad, entryB].length])) :=
  ⟨rfl, serialization_failure_is_local sampleMarshal ⟨openTok, 2, [], [Effect.writeOpen]⟩
    [entryA, entryBad, entryB] true rfl⟩

/-! ## Diagnostics -/

theorem diagnostics_append (xs ys : List Effect) :
    diagnostics (xs ++ ys) = diagnostics xs ++ diagnostics ys := by
  induction xs with
  | nil => rfl
  | cons x xs ih => cases x <;> simp [diagnostics, ih]

theorem diagnostics_entryEffects (marshal : LogEntry → Option Bytes) (logs : List LogEntry) :
    ∀ sepFirst : Bool, diagnostics (entryEffects marshal sepFirst logs) =
      List.replicate (logs.countP (fun entry => (marshal entry).isNone)) Effect.marshalError := by
  induction logs with
  | nil => intro b; rfl
  | cons entry rest ih =>
    intro b
    cases hm : marshal entry with
    | none => simp [entryEffects, hm, diagnostics, ih, List.countP_cons, List.replicate_succ]
    | some data =>
      cases b <;> simp [entryEffects, hm, diagnostics, ih, List.countP_cons]

theorem countP_isNone_of_serializable (marshal : LogEntry → Option Bytes)
    (logs : List LogEntry) (hs : ∀ entry ∈ logs, (marshal entry).isSome) :
    logs.countP (fun entry => (marshal entry).isNone) = 0 := by
  rw [List.countP_eq_zero]
  intro entry hmem
  have := hs entry hmem
  cases hm : marshal entry with
  | none => simp [hm] at this
  | some data => simp

theorem filterMap_length_of_serializable (marshal : LogEntry → Option Bytes)
    (logs : List LogEntry) (hs : ∀ entry ∈ logs, (marshal entry).isSome) :
    (logs.filterMap marshal).length = logs.length := by
  induction logs with
  | nil => rfl
  | cons entry rest ih =>
    have h1 := hs entry (List.mem_cons_self _ _)
    have h2 : ∀ x ∈ rest, (marshal x).isSome := fun x hx => hs x (List.mem_cons_of_mem _ hx)
    cases hm : marshal entry with
    | none => simp [hm] at h1
    | some data => simp [List.filterMap_cons, hm, ih h2]

theorem writeClose_not_mem_entryEffects (marshal : LogEntry → Option Bytes)
    (logs : List LogEntry) (sepFirst : Bool) :
    Effect.writeClose ∉ entryEffects marshal sepFirst logs := by
  intro h
  rcases entryEffects_mem marshal logs _ _ h with h1 | h1 | ⟨_, _, _, h1⟩ <;> cases h1

/-! ## The threshold trigger (C8) -/

theorem separated_eq_separatedBy (datas : List Bytes) :
    ∀ sepFirst : Bool, separated sepFirst datas = separatedBy [44, 10] sepFirst datas := by
  induction datas with
  | nil => intro b; rfl
  | cons data rest ih =>
    intro b
    simp only [separated, separatedBy, ih]
    rfl

/-- C8, as the code has it: with threshold N at least 1, an empty pending slice, working
storage and N entries arriving with no tick in between, nothing is written and all
arrivals are pending after any k < N of them, and the N-th arrival performs one call
writeLogs(file, entries, false) and leaves pending empty.  That flush writes no closing
token, syncs once and reports N once; its writes are separators (the bytes 44, 10) and
entry serializations, the payloads being those of the entries that serialize, in
arrival order, with one diagnostic per entry that does not.  When all N entries
serialize, the bytes appended are the N serializations in arrival order, each preceded
by the separator, the first one only when the file already holds more than 2 bytes. -/
theorem threshold_trigger (marshal : LogEntry → Option Bytes) (N : Nat) (hN : 1 ≤ N)
    (w : World) (entries : List LogEntry) (hlen : entries.length = N) (hf : w.faults = []) :
    (∀ k, k < N → loop (N : Int) marshal ⟨w, []⟩ ((entries.take k).map Event.recv) =
        Outcome.waiting ⟨w, entries.take k⟩) ∧
      loop (N : Int) marshal ⟨w, []⟩ (entries.map Event.recv) =
        Outcome.waiting ⟨writeLogs marshal w entries false, []⟩ ∧
      (∃ effs : List Effect,
        (writeLogs marshal w entries false).effects = w.effects ++ effs ∧
        (writeLogs marshal w entries false).contents = w.contents ++ effectBytes effs ∧
        Effect.writeClose ∉ effs ∧
        entryData effs = entries.filterMap marshal ∧
        (∀ eff ∈ effs, eff.isWrite = true →
          (eff = Effect.writeSep ∧ eff.bytes = [44, 10]) ∨
            ∃ entry ∈ entries, marshal entry = some eff.bytes ∧
              eff = Effect.writeEntry eff.bytes) ∧
        effs.count Effect.sync = 1 ∧
        diagnostics effs =
          List.replicate (entries.countP (fun entry => (marshal entry).isNone))
            Effect.marshalError ++ [Effect.wrote N]) ∧
      ((∀ entry ∈ entries, (marshal entry).isSome) →
        (writeLogs marshal w entries false).contents =
          w.contents ++ separatedBy [44, 10] (decide (w.size > 2)) (entries.filterMap marshal) ∧
        (entries.filterMap marshal).length = N) := by
  have hne : entries ≠ [] := by
    intro h; subst h; simp at hlen; omega
  refine ⟨?_, ?_, ?_, ?_⟩
  · intro k hk
    have h := loop_recv_below marshal N w (entries.take k) []
      (by simp only [List.length_nil, List.length_take]; omega)
    simpa using h
  · have h := loop_recv_reach marshal N w entries [] hne (by simpa using hlen)
    simpa using h
  · refine ⟨_, writeLogs_effects marshal w entries false hne, ?_, ?_, ?_, ?_, ?_, ?_⟩
    · rw [writeLogs_contents marshal w entries false hne hf]
      simp [effectBytes_append, effectBytes, Effect.bytes]
    · intro hmem
      simp only [List.mem_append, List.mem_cons] at hmem
      rcases hmem with h | h
      · exact writeClose_not_mem_entryEffects _ _ _ h
      · simp at h
    · rw [entryData_append, entryData_entryEffects]
      simp [entryData]
    · intro eff hmem hw
      simp only [List.mem_append, List.mem_cons] at hmem
      rcases hmem with h | h
      · rcases entryEffects_mem marshal entries _ _ h with h1 | h1 | h1
        · exact Or.inl ⟨h1, by rw [h1]; rfl⟩
        · rw [h1] at hw; simp [Effect.isWrite] at hw
        · exact Or.inr h1
      · simp at h
        rcases h with h | h <;> rw [h] at hw <;> simp [Effect.isWrite] at hw
    · rw [List.count_append]
      have h0 : (entryEffects marshal (decide (w.size > 2)) entries).count Effect.sync = 0 := by
        rw [List.count_eq_zero]
        intro h
        rcases entryEffects_mem marshal entries _ _ h with h1 | h1 | ⟨_, _, _, h1⟩ <;> cases h1
      rw [h0]
      simp [List.count_cons]
    · rw [diagnostics_append, diagnostics_entryEffects, hlen]
      simp [diagnostics]
  · intro hs
    constructor
    · rw [writeLogs_contents marshal w entries false hne hf,
        entryEffects_serializable marshal entries hs, separated_eq_separatedBy]
      simp
    · rw [filterMap_length_of_serializable marshal entries hs, hlen]

set_option maxRecDepth 100000 in
theorem threshold_trigger_witness :
    1 ≤ 2 ∧ [entryA, entryB].length = 2 ∧
      (⟨openTok, 2, [], [Effect.writeOpen]⟩ : World).faults = [] ∧
      (∀ entry ∈ [entryA, entryB], (sampleMarshal entry).isSome) ∧
      loop ((2 : Nat) : Int) sampleMarshal ⟨⟨openTok, 2, [], [Effect.writeOpen]⟩, []⟩
          ([entryA, entryB].map Event.recv) =
        Outcome.waiting
          ⟨writeLogs sampleMarshal ⟨openTok, 2, [], [Effect.writeOpen]⟩ [entryA, entryB] false,
            []⟩ ∧
      (writeLogs sampleMarshal ⟨openTok, 2, [], [Effect.writeOpen]⟩ [entryA, entryB]
          false).contents =
        [91, 10] ++ separatedBy [44, 10] (decide ((⟨openTok, 2, [], [Effect.writeOpen]⟩ :
          World).size > 2)) ([entryA, entryB].filterMap sampleMarshal) :=
  ⟨by decide, rfl, rfl, by decide,
    (threshold_trigger sampleMarshal 2 (by decide) ⟨openTok, 2, [], [Effect.writeOpen]⟩
      [entryA, entryB] rfl rfl).2.1,
    ((threshold_trigger sampleMarshal 2 (by decide) ⟨openTok, 2, [], [Effect.writeOpen]⟩
      [entryA, entryB] rfl rfl).2.2.2 (by decide)).1⟩

set_option maxRecDepth 100000 in
/-- C8 fails as stated: with threshold 2 on a file holding the opening token alone, two
entries arrive of which the first does not serialize; the one flush on the second
arrival writes a single entry, not the two that arrived, and the bytes appended are
the separator 44, 10 followed by that entry. -/
theorem threshold_flush_skips_unserializable :
    loop 2 sampleMarshal ⟨⟨openTok, 2, [], [Effect.writeOpen]⟩, []⟩
        [Event.recv entryBad, Event.recv entryB] =
      Outcome.waiting
        ⟨writeLogs sampleMarshal ⟨openTok, 2, [], [Effect.writeOpen]⟩ [entryBad, entryB] false,
          []⟩ ∧
    entryData (writeLogs sampleMarshal ⟨openTok, 2, [], [Effect.writeOpen]⟩
        [entryBad, entryB] false).effects = [(sampleMarshal entryB).getD []] ∧
    (entryData (writeLogs sampleMarshal ⟨openTok, 2, [], [Effect.writeOpen]⟩
        [entryBad, entryB] false).effects).length ≠ 2 ∧
    (writeLogs sampleMarshal ⟨openTok, 2, [], [Effect.writeOpen]⟩ [entryBad, entryB]
        false).contents = [91, 10] ++ [44, 10] ++ (sampleMarshal entryB).getD [] := by
  refine ⟨by decide, by decide, by decide, by decide⟩

/-! ## The closing token (C9) -/

theorem final_flush_close_last (marshal : LogEntry → Option Bytes) (s1 : Writer)
    (hno : Effect.writeClose ∉ s1.world.effects) :
    (writeLogs marshal s1.world s1.logs true).effects.count Effect.writeClose ≤ 1 ∧
      (Effect.writeClose ∈ (writeLogs marshal s1.world s1.logs true).effects →
        ((writeLogs marshal s1.world s1.logs true).effects.filter Effect.isWrite).getLast? =
          some Effect.writeClose) := by
  by_cases hne : s1.logs = []
  · rw [hne, writeLogs_nil]
    refine ⟨?_, fun h => absurd h hno⟩
    rw [List.count_eq_zero.mpr hno]
    exact Nat.zero_le _
  · rw [writeLogs_effects marshal s1.world s1.logs true hne]
    constructor
    · rw [List.count_append, List.count_append, List.count_eq_zero.mpr hno,
        List.count_eq_zero.mpr (writeClose_not_mem_entryEffects marshal s1.logs _)]
      simp [List.count_cons]
    · intro _
      have hsplit : s1.world.effects ++ (entryEffects marshal (decide (s1.world.size > 2)) s1.logs ++
          ((if true = true then [Effect.writeClose] else []) ++
            [Effect.sync, Effect.wrote s1.logs.length])) =
          (s1.world.effects ++ entryEffects marshal (decide (s1.world.size > 2)) s1.logs) ++
            ([Effect.writeClose] ++ [Effect.sync, Effect.wrote s1.logs.length]) := by
        simp
      rw [hsplit, List.filter_append, List.filter_append]
      simp [List.filter_cons, Effect.isWrite, List.getLast?_append]

/-- C9: a normal flush appends only separators and entry serializations (on working
storage the bytes appended by writeLogs(file, logs, false) are those of its effects, and
each write among them is the separator or the serialization of an entry of the batch),
and every run of processLogs followed by queue closure returns, having written the
closing token at most once, and then as the last write of the run. -/
theorem closing_token_only_last (bufferFlag : Int) (marshal : LogEntry → Option Bytes)
    (w : World) (logs : List LogEntry) (hf : w.faults = []) (disk : Option Bytes)
    (faults : List (Option Nat)) (events : List Event) :
    (∃ effs : List Effect,
      (writeLogs marshal w logs false).effects = w.effects ++ effs ∧
      (writeLogs marshal w logs false).contents = w.contents ++ effectBytes effs ∧
      ∀ eff ∈ effs, eff.isWrite = true →
        eff = Effect.writeSep ∨
          ∃ entry ∈ logs, marshal entry = some eff.bytes ∧ eff = Effect.writeEntry eff.bytes) ∧
    (∃ s : Writer,
      processLogs bufferFlag marshal disk false false faults (events ++ [Event.closed]) =
        Outcome.returned s ∧
      s.world.effects.count Effect.writeClose ≤ 1 ∧
      (Effect.writeClose ∈ s.world.effects →
        (s.world.effects.filter Effect.isWrite).getLast? = some Effect.writeClose)) := by
  constructor
  · by_cases hne : logs = []
    · subst hne
      exact ⟨[], by simp [writeLogs_nil], by simp [writeLogs_nil, effectBytes],
        fun eff h => absurd h (List.not_mem_nil _)⟩
    · refine ⟨_, writeLogs_effects marshal w logs false hne, ?_, ?_⟩
      · rw [writeLogs_contents marshal w logs false hne hf]
        simp [effectBytes_append, effectBytes, Effect.bytes]
      · intro eff hmem hw
        simp only [List.mem_append, List.mem_cons] at hmem
        rcases hmem with h | h
        · rcases entryEffects_mem marshal logs _ _ h with h1 | h1 | h1
          · exact Or.inl h1
          · rw [h1] at hw; simp [Effect.isWrite] at hw
          · exact Or.inr h1
        · simp at h
          rcases h with h | h <;> rw [h] at hw <;> simp [Effect.isWrite] at hw
  · simp only [processLogs, Bool.false_eq_true, if_false]
    rcases loop_closed_returns bufferFlag marshal events
      ⟨if (⟨disk.getD [], 0, faults, []⟩ : World).size = 0 then
          (⟨disk.getD [], 0, faults, []⟩ : World).write Effect.writeOpen
        else (⟨disk.getD [], 0, faults, []⟩ : World).seekEnd2, []⟩ with ⟨s, hs⟩
    refine ⟨s, hs, ?_⟩
    have hno : Effect.writeClose ∉
        (if (⟨disk.getD [], 0, faults, []⟩ : World).size = 0 then
          (⟨disk.getD [], 0, faults, []⟩ : World).write Effect.writeOpen
        else (⟨disk.getD [], 0, faults, []⟩ : World).seekEnd2).effects := by
      split
      · simp [write_effects]
      · unfold World.seekEnd2
        split <;> simp
    rcases loop_returned_final bufferFlag marshal _ _ s hs hno with ⟨s1, hno1, rfl⟩
    exact final_flush_close_last marshal s1 hno1

theorem closing_token_only_last_witness :
    (⟨openTok, 2, [], [Effect.writeOpen]⟩ : World).faults = [] ∧
    ∃ s : Writer,
      processLogs 100 sampleMarshal none false false []
          ([Event.recv entryA, Event.tick, Event.recv entryB] ++ [Event.closed]) =
        Outcome.returned s ∧
      s.world.effects.count Effect.writeClose ≤ 1 ∧
      (Effect.writeClose ∈ s.world.effects →
        (s.world.effects.filter Effect.isWrite).getLast? = some Effect.writeClose) :=
  ⟨rfl, (closing_token_only_last 100 sampleMarshal ⟨openTok, 2, [], [Effect.writeOpen]⟩
    [entryA] rfl none [] [Event.recv entryA, Event.tick, Event.recv entryB]).2⟩

/-! ## Storage failures (C4) -/

theorem writeLogs_diagnostics (marshal : LogEntry → Option Bytes) (w1 w2 : World)
    (logs : List LogEntry) (isFinal : Bool)
    (h : diagnostics w1.effects = diagnostics w2.effects) :
    diagnostics (writeLogs marshal w1 logs isFinal).effects =
      diagnostics (writeLogs marshal w2 logs isFinal).effects := by
  by_cases hne : logs = []
  · subst hne; simpa [writeLogs_nil] using h
  · rw [writeLogs_effects marshal w1 logs isFinal hne,
      writeLogs_effects marshal w2 logs isFinal hne]
    simp only [diagnostics_append, diagnostics_entryEffects, h]

theorem step_observed (bufferFlag : Int) (marshal : LogEntry → Option Bytes)
    (s1 s2 : Writer) (ev : Event) (hl : s1.logs = s2.logs)
    (hd : diagnostics s1.world.effects = diagnostics s2.world.effects) :
    (step bufferFlag marshal s1 ev).1 = (step bufferFlag marshal s2 ev).1 ∧
      (step bufferFlag marshal s1 ev).2.logs = (step bufferFlag marshal s2 ev).2.logs ∧
      diagnostics (step bufferFlag marshal s1 ev).2.world.effects =
        diagnostics (step bufferFlag marshal s2 ev).2.world.effects := by
  cases ev with
  | closed =>
    have h := writeLogs_diagnostics marshal s1.world s2.world s1.logs true hd
    refine ⟨rfl, hl, ?_⟩
    show diagnostics (writeLogs marshal s1.world s1.logs true).effects =
      diagnostics (writeLogs marshal s2.world s2.logs true).effects
    rw [← hl]
    exact h
  | recv entry =>
    simp only [step, hl]
    split
    · exact ⟨rfl, rfl, writeLogs_diagnostics marshal _ _ _ _ hd⟩
    · exact ⟨rfl, rfl, hd⟩
  | tick =>
    simp only [step, hl]
    split
    · exact ⟨rfl, rfl, writeLogs_diagnostics marshal _ _ _ _ hd⟩
    · exact ⟨rfl, hl, hd⟩

theorem loop_observed (bufferFlag : Int) (marshal : LogEntry → Option Bytes)
    (events : List Event) :
    ∀ s1 s2 : Writer, s1.logs = s2.logs →
      diagnostics s1.world.effects = diagnostics s2.world.effects →
      (loop bufferFlag marshal s1 events).observed =
        (loop bufferFlag marshal s2 events).observed := by
  induction events with
  | nil =>
    intro s1 s2 hl hd
    simp [loop, Outcome.observed, hl, hd]
  | cons ev rest ih =>
    intro s1 s2 hl hd
    obtain ⟨h1, h2, h3⟩ := step_observed bufferFlag marshal s1 s2 ev hl hd
    simp only [loop]
    rcases hs1 : step bufferFlag marshal s1 ev with ⟨d1, t1⟩
    rcases hs2 : step bufferFlag marshal s2 ev with ⟨d2, t2⟩
    rw [hs1, hs2] at h1 h2 h3
    simp only at h1 h2 h3
    subst h1
    cases d1
    · exact ih t1 t2 h2 h3
    · simp [Outcome.observed, h2, h3]

/-- C4, as the code has it: storage failures change nothing a caller or operator can
observe of processLogs.  Whatever WriteString, Write and Sync calls fail, the call stands
as in the run without failures (returned on queue closure, still receiving before it),
has printed the same diagnostics and holds the same pending entries. -/
theorem storage_failures_unobserved (bufferFlag : Int) (marshal : LogEntry → Option Bytes)
    (disk : Option Bytes) (openErr statErr : Bool) (faults : List (Option Nat))
    (events : List Event) :
    (processLogs bufferFlag marshal disk openErr statErr faults events).observed =
      (processLogs bufferFlag marshal disk openErr statErr [] events).observed := by
  unfold processLogs
  cases openErr
  · cases statErr
    · simp only [Bool.false_eq_true, if_false]
      apply loop_observed
      · rfl
      · simp only [World.size]
        split
        · simp [write_effects]
        · unfold World.seekEnd2
          split <;> rfl
    · rfl
  · rfl

set_option maxRecDepth 100000 in
/-- C4 fails as stated: on a fresh file with threshold 1, the third storage call (the
Sync of the first flush) fails, yet the next entry is received and written, and the
outcome of the call is equal, file included, to that of the run without any failure. -/
theorem sync_failure_not_surfaced :
    processLogs 1 sampleMarshal none false false [none, none, some 0]
        [Event.recv entryA, Event.recv entryB, Event.closed] =
      processLogs 1 sampleMarshal none false false []
        [Event.recv entryA, Event.recv entryB, Event.closed] ∧
    (processLogs 1 sampleMarshal none false false [none, none, some 0]
        [Event.recv entryA, Event.recv entryB, Event.closed]).effects =
      [Effect.writeOpen, Effect.writeEntry ((sampleMarshal entryA).getD []), Effect.sync,
        Effect.wrote 1, Effect.writeSep, Effect.writeEntry ((sampleMarshal entryB).getD []),
        Effect.sync, Effect.wrote 1] := by
  constructor <;> decide

/-! ## The buffer flag (C5) -/

/-- C5, as the code has it: among the values of the buffer flag that are at most 0, main
starts the writer exactly for the value 0 (when the consumer and the subscription
succeed), with threshold 0; for every negative value the creation of the channel
panics first, and no check of the flag exists. -/
theorem nonpositive_buffer_flag (maxChan : Nat) (bufferFlag : Int) (hb : bufferFlag ≤ 0)
    (consumerErr subscribeErr : Bool) :
    (∃ capacity threshold,
        mainStartup maxChan bufferFlag consumerErr subscribeErr =
          Startup.writerStarted capacity threshold) ↔
      (bufferFlag = 0 ∧ consumerErr = false ∧ subscribeErr = false) := by
  constructor
  · rintro ⟨capacity, threshold, h⟩
    unfold mainStartup at h
    cases consumerErr
    · cases subscribeErr
      · simp only [Bool.false_eq_true, if_false] at h
        unfold makeChan at h
        by_cases hneg : bufferFlag < 0
        · simp [hneg] at h
        · exact ⟨by omega, rfl, rfl⟩
      · simp at h
    · simp at h
  · rintro ⟨h0, h1, h2⟩
    subst h0 h1 h2
    have hpos : ¬ ((maxChan : Int) < 0) := by omega
    exact ⟨0, 0, by simp [mainStartup, makeChan, hpos]⟩

theorem nonpositive_buffer_flag_witness :
    ((-5 : Int) ≤ 0) ∧
      ((∃ capacity threshold,
          mainStartup 1000 (-5) false false = Startup.writerStarted capacity threshold) ↔
        ((-5 : Int) = 0 ∧ false = false ∧ false = false)) :=
  ⟨by decide, nonpositive_buffer_flag 1000 (-5) (by decide) false false⟩

set_option maxRecDepth 100000 in
/-- C5 fails as stated: with the buffer flag 0 main starts the writer, whose threshold
is then 0, so that every entry is flushed on arrival. -/
theorem zero_buffer_flag_starts_writer :
    mainStartup 1000 0 false false = Startup.writerStarted 0 0 ∧
      step 0 sampleMarshal ⟨⟨openTok, 2, [], [Effect.writeOpen]⟩, []⟩ (Event.recv entryA) =
        (false, ⟨writeLogs sampleMarshal ⟨openTok, 2, [], [Effect.writeOpen]⟩ [entryA] false,
          []⟩) := by
  constructor <;> decide

/-! ## Where the code leaves the array open or broken (C1, C2, C3, C7) -/

set_option maxRecDepth 100000 in
/-- C1 at its failing inputs: on a fresh file, a queue closed before any entry makes
processLogs return with the file holding the opening token alone, and with threshold 1
one entry then closure leaves the opening token and the entry without the closing
token; neither file has the shape of a JSON array. -/
theorem fresh_run_leaves_array_open :
    (∀ (bufferFlag : Int) (marshal : LogEntry → Option Bytes),
      processLogs bufferFlag marshal none false false [] [Event.closed] =
        Outcome.returned ⟨⟨openTok, 2, [], [Effect.writeOpen]⟩, []⟩) ∧
    arrayShaped openTok = false ∧
    (∀ (enc : LogEntry → Bytes) (entry : LogEntry),
      (processLogs 1 (fun x => some (enc x)) none false false []
        [Event.recv entry, Event.closed]).contents = openTok ++ enc entry) ∧
    arrayShaped (processLogs 1 sampleMarshal none false false []
      [Event.recv entryA, Event.closed]).contents = false := by
  refine ⟨?_, by decide, ?_, by decide⟩
  · intro bufferFlag marshal
    rfl
  · intro enc entry
    simp [processLogs, loop, step, writeLogs, writeEntries, World.write, World.sync,
      World.print, World.size, Outcome.contents, Effect.bytes, openTok]

set_option maxRecDepth 100000 in
/-- C2 at its failing input: a first run on a fresh file with one entry leaves the array
document of that entry; a second run on that file with one more entry appends the
separator, the entry and a closing token after the old closing token, which is not
the array document of the two entries and has not the shape of a JSON array. -/
theorem reopen_appends_after_closing_token (enc : LogEntry → Bytes) (a b : LogEntry) :
    (processLogs 100 (fun x => some (enc x)) none false false []
        [Event.recv a, Event.closed]).contents = arrayDoc [enc a] ∧
    (processLogs 100 (fun x => some (enc x)) (some (arrayDoc [enc a])) false false []
        [Event.recv b, Event.closed]).contents =
      arrayDoc [enc a] ++ sepTok ++ enc b ++ closeTok ∧
    arrayDoc [enc a] ++ sepTok ++ enc b ++ closeTok ≠ arrayDoc [enc a, enc b] ∧
    arrayShaped (processLogs 100 sampleMarshal
      (some (processLogs 100 sampleMarshal none false false []
        [Event.recv entryA, Event.closed]).contents) false false []
      [Event.recv entryB, Event.closed]).contents = false := by
  refine ⟨?_, ?_, ?_, by decide⟩
  · simp [processLogs, loop, step, writeLogs, writeEntries, World.write, World.sync,
      World.print, World.size, Outcome.contents, Effect.bytes, openTok, closeTok, arrayDoc,
      separated]
  · simp [processLogs, loop, step, writeLogs, writeEntries, World.write, World.sync,
      World.print, World.size, World.seekEnd2, Outcome.contents, Effect.bytes, openTok,
      closeTok, sepTok, arrayDoc, separated]
  · intro h
    have hlen := congrArg List.length h
    simp [arrayDoc, separated, openTok, closeTok, sepTok] at hlen

set_option maxRecDepth 100000 in
/-- C3 at its failing input: when the queue is observed closed with nothing pending, the
final flush returns at once and the state is left as it was, without a closing token;
so after a threshold flush of one entry the run ends with no closing token written. -/
theorem final_flush_of_nothing_writes_nothing :
    (∀ (bufferFlag : Int) (marshal : LogEntry → Option Bytes) (w : World),
      step bufferFlag marshal ⟨w, []⟩ Event.closed = (true, ⟨w, []⟩)) ∧
    (processLogs 1 sampleMarshal none false false []
        [Event.recv entryA, Event.closed]).effects =
      [Effect.writeOpen, Effect.writeEntry ((sampleMarshal entryA).getD []), Effect.sync,
        Effect.wrote 1] := by
  refine ⟨?_, by decide⟩
  intro bufferFlag marshal w
  rfl

set_option maxRecDepth 100000 in
/-- C7 at its failing input: on a file holding the opening token alone, a batch whose
first entry fails to serialize gets a separator before its second entry, the first
element ever written to the array. -/
theorem separator_before_first_element :
    (writeLogs sampleMarshal ⟨openTok, 2, [], [Effect.writeOpen]⟩ [entryBad, entryB]
        false).effects =
      [Effect.writeOpen, Effect.marshalError, Effect.writeSep,
        Effect.writeEntry ((sampleMarshal entryB).getD []), Effect.sync, Effect.wrote 2] ∧
    (writeLogs sampleMarshal ⟨openTok, 2, [], [Effect.writeOpen]⟩ [entryBad, entryB]
        false).contents = openTok ++ sepTok ++ (sampleMarshal entryB).getD [] ∧
    (processLogs 100 sampleMarshal none false false []
        [Event.recv entryBad, Event.recv entryB, Event.closed]).contents =
      openTok ++ sepTok ++ (sampleMarshal entryB).getD [] ++ closeTok := by
  refine ⟨by decide, by decide, by decide⟩

end LogAggregator
